import Mathlib

set_option maxRecDepth 8000

/-!
Shallow embedding of the menu-parsing core of `app.py` (MensaHSG).

Strings are modelled as `List Char`.  The regex character classes of the
source are restricted to the ASCII + German-umlaut repertoire the program
works with: `\s` is embedded as the six ASCII whitespace characters,
`\w` as ASCII alphanumerics, `_`, the umlauts and `ß`, and `str.lower()`
as lowercasing of `A`–`Z`, `Ä`, `Ö`, `Ü` (the only cased characters the
program's patterns distinguish).
-/

/-- The regex class `\s` (ASCII part: space, tab, `\n`, `\v`, `\f`, `\r`). -/
def isWS (c : Char) : Bool :=
  c == ' ' || c == '\t' || c == '\n' || c == '\r' || c.toNat == 11 || c.toNat == 12

/-- The regex class `\d` (ASCII digits). -/
def isDigitCh (c : Char) : Bool := 48 ≤ c.toNat && c.toNat ≤ 57

/-- The uppercase letters of the class `[A-ZÄÖÜ]` paired with their
lowercase forms. -/
def upperLowerPairs : List (Char × Char) :=
  [('A', 'a'), ('B', 'b'), ('C', 'c'), ('D', 'd'), ('E', 'e'), ('F', 'f'),
   ('G', 'g'), ('H', 'h'), ('I', 'i'), ('J', 'j'), ('K', 'k'), ('L', 'l'),
   ('M', 'm'), ('N', 'n'), ('O', 'o'), ('P', 'p'), ('Q', 'q'), ('R', 'r'),
   ('S', 's'), ('T', 't'), ('U', 'u'), ('V', 'v'), ('W', 'w'), ('X', 'x'),
   ('Y', 'y'), ('Z', 'z'), ('Ä', 'ä'), ('Ö', 'ö'), ('Ü', 'ü')]

/-- The regex class `[A-ZÄÖÜ]` of the source. -/
def isUpperAOU (c : Char) : Bool := upperLowerPairs.any (fun p => p.1 == c)

/-- The regex class `[a-zäöü]` of the source. -/
def isLowerDE (c : Char) : Bool :=
  (97 ≤ c.toNat && c.toNat ≤ 122) || c == 'ä' || c == 'ö' || c == 'ü'

/-- The regex class `[A-Za-zÄÖÜäöü]` of the source (also what `[A-ZÄÖÜ]`
matches under `re.IGNORECASE`). -/
def isAlphaDE (c : Char) : Bool := isUpperAOU c || isLowerDE c

/-- The regex class `\w` (restricted to the program's character repertoire). -/
def isWordChar (c : Char) : Bool := isAlphaDE c || isDigitCh c || c == '_' || c == 'ß'

/-- The decimal-separator class `[.,]` of the price pattern. -/
def isSepCh (c : Char) : Bool := c == '.' || c == ','

/-- `str.lower()` on one character, for the characters the program's
patterns distinguish (`A`–`Z`, `Ä`, `Ö`, `Ü`); all others are kept. -/
def pyLowerChar (c : Char) : Char :=
  ((upperLowerPairs.find? (fun p => p.1 == c)).map Prod.snd).getD c

/-- `str.lower()` on a whole string. -/
def pyLowerStr (s : List Char) : List Char := s.map pyLowerChar

/-- View a Lean string literal as the `List Char` the embedding works on. -/
def sToL (s : String) : List Char := s.data

/-- `startswith`: the first list is a prefix of the second. -/
def startsWithL : List Char → List Char → Bool
  | [], _ => true
  | _ :: _, [] => false
  | k :: ks, c :: cs => k == c && startsWithL ks cs

/-- Case-insensitive prefix test (the needle is given lowercase). -/
def startsWithCI : List Char → List Char → Bool
  | [], _ => true
  | _ :: _, [] => false
  | k :: ks, c :: cs => pyLowerChar c == k && startsWithCI ks cs

/-- Python's `needle in haystack` substring test. -/
def containsSub (needle : List Char) : List Char → Bool
  | [] => startsWithL needle []
  | c :: rest => startsWithL needle (c :: rest) || containsSub needle rest

/-- `" ".join(...)` on a list of words. -/
def joinSpace : List (List Char) → List Char
  | [] => []
  | [w] => w
  | w :: ws => w ++ ' ' :: joinSpace ws

/-- `"\n".join(...)` on a list of lines. -/
def joinNL : List (List Char) → List Char
  | [] => []
  | [w] => w
  | w :: ws => w ++ '\n' :: joinNL ws

/-- Python slice `s[a:b]` for `0 ≤ a, b` (empty when `b ≤ a`). -/
def pySlice {α : Type} (l : List α) (a b : Nat) : List α := (l.drop a).take (b - a)

/-- Worker for `re.sub(r"\s+", " ", s)`: the boolean remembers whether the
previous character was part of a whitespace run already replaced. -/
def collapseGo : Bool → List Char → List Char
  | _, [] => []
  | inRun, c :: rest =>
    if isWS c then
      (if inRun then collapseGo true rest else ' ' :: collapseGo true rest)
    else c :: collapseGo false rest

/-- `re.sub(r"\s+", " ", s)`: every whitespace run becomes a single space. -/
def collapseAllWS (s : List Char) : List Char := collapseGo false s

/-- `str.strip(chars)`: drop characters satisfying `p` from both ends. -/
def pyStrip (p : Char → Bool) (s : List Char) : List Char :=
  ((s.dropWhile p).reverse.dropWhile p).reverse

/-- Worker for `str.split()`: accumulate the current word reversed. -/
def splitWSGo (acc : List Char) : List Char → List (List Char)
  | [] => if acc.isEmpty then [] else [acc.reverse]
  | c :: rest =>
    if isWS c then
      (if acc.isEmpty then splitWSGo [] rest else acc.reverse :: splitWSGo [] rest)
    else splitWSGo (c :: acc) rest

/-- Python `s.split()`: split on whitespace runs, dropping empty words. -/
def splitWS (s : List Char) : List (List Char) := splitWSGo [] s

/-- Worker for the fullmatch of `(?:[A-Za-zÄÖÜäöü]\s*){3,}`: counts the
letter groups (one letter followed by optional whitespace); fuel is the
list length, enough since every group consumes at least one character. -/
def lgGo : Nat → List Char → Option Nat
  | _, [] => some 0
  | 0, _ :: _ => none
  | fuel + 1, c :: rest =>
    if isAlphaDE c then (lgGo fuel (rest.dropWhile isWS)).map (· + 1) else none

/-- `re.fullmatch(r"(?:[A-Za-zÄÖÜäöü]\s*){3,}", word)` succeeds. -/
def squashPat (w : List Char) : Bool :=
  match lgGo w.length w with
  | some n => 3 ≤ n
  | none => false

/-- The inner `fix_word` of `_squash_spaced_letters`: when the word
fullmatches the spaced-letter pattern, remove all whitespace
(`re.sub(r"\s+", "", word)`); otherwise keep the word. -/
def fixWord (w : List Char) : List Char :=
  if squashPat w then w.filter (fun c => !(isWS c)) else w

/-- `_squash_spaced_letters` of `app.py`:
`" ".join(fix_word(w) for w in s.split())`. -/
def squash_spaced_letters (s : List Char) : List Char :=
  joinSpace ((splitWS s).map fixWord)

/-- Modelled from the spec side for the refinement claim: plain
whitespace-run collapsing, Python's `" ".join(s.split())`. -/
def plainWSCollapse (s : List Char) : List Char := joinSpace (splitWS s)

-- § data model

/-- One dish entry, `{"title": ..., "price_chf": ...}` of `app.py`. -/
structure MenuItem where
  title : List Char
  price_chf : Option (List Char)
deriving DecidableEq, Repr

/-- The five canonical German weekday keys of `WEEKDAY_ORDER`. -/
inductive Weekday where
  | montag | dienstag | mittwoch | donnerstag | freitag
deriving DecidableEq, Repr

/-- `WEEKDAY_ORDER` of `app.py`, in its fixed canonical order. -/
def WEEKDAY_ORDER : List Weekday :=
  [.montag, .dienstag, .mittwoch, .donnerstag, .freitag]

/-- The letter sequence of each weekday pattern of `WEEKDAY_PATTERNS`
(the regexes interleave the letters with `\s*`). -/
def wdLetters : Weekday → List Char
  | .montag => sToL "montag"
  | .dienstag => sToL "dienstag"
  | .mittwoch => sToL "mittwoch"
  | .donnerstag => sToL "donnerstag"
  | .freitag => sToL "freitag"

-- § item extractor: allergen-code stripping
-- (re.sub(r"\b([A-ZÄÖÜ](?:\s*,\s*[A-ZÄÖÜ])+)\b", "", text), no IGNORECASE)

/-- Word boundary `\b` before a word character, given the previous
character of the original text (`none` at the start of the text). -/
def boundaryBeforeO : Option Char → Bool
  | none => true
  | some c => !(isWordChar c)

/-- Word boundary `\b` after a word character, given the rest of the text. -/
def boundaryAfter : List Char → Bool
  | [] => true
  | c :: _ => !(isWordChar c)

/-- Greedy repetitions of `(?:\s*,\s*[A-ZÄÖÜ])`: for each number of
repetitions matched, record the final uppercase letter and the rest of
the text after it.  Fuel is the list length; every repetition consumes at
least the comma and the letter. -/
def repEndsGo : Nat → List Char → List (Char × List Char)
  | 0, _ => []
  | fuel + 1, s =>
    match s.dropWhile isWS with
    | ',' :: t =>
      (match t.dropWhile isWS with
       | c :: t2 => if isUpperAOU c then (c, t2) :: repEndsGo fuel t2 else []
       | [] => [])
    | _ => []

/-- All rest-of-text states after 1, 2, … repetitions of `\s*,\s*[A-ZÄÖÜ]`. -/
def repEnds (s : List Char) : List (Char × List Char) := repEndsGo s.length s

/-- Backtracking of the greedy `+` against the trailing `\b`: take the
largest repetition count whose end sits on a word boundary. -/
def allergTail (s : List Char) : Option (Char × List Char) :=
  (repEnds s).reverse.find? (fun e => boundaryAfter e.2)

/-- Scanner of the allergen-code substitution.  `prev` is the character of
the original text preceding the scan position (for `\b`).  On a match the
whole matched span is dropped (replacement is empty) and scanning resumes
after it, with `prev` the final matched letter.  Fuel is the text length;
every step consumes at least one character. -/
def allergGo : Nat → Option Char → List Char → List Char
  | 0, _, s => s
  | _ + 1, _, [] => []
  | fuel + 1, prev, c :: rest =>
    if boundaryBeforeO prev && isUpperAOU c then
      match allergTail rest with
      | some e => allergGo fuel (some e.1) e.2
      | none => c :: allergGo fuel (some c) rest
    else c :: allergGo fuel (some c) rest

/-- `re.sub(r"\b([A-ZÄÖÜ](?:\s*,\s*[A-ZÄÖÜ])+)\b", "", text)`. -/
def stripAllergens (s : List Char) : List Char := allergGo s.length none s

-- § item extractor: legend stripping
-- (re.sub(r"\b(Allerg(?:ene|ien)|Icon|Info|Bio)\b.*?$", "", text, IGNORECASE))

/-- One keyword alternative matches here (case-insensitively) and ends on
a word boundary. -/
def kwAtCI (kw : List Char) (s : List Char) : Bool :=
  startsWithCI kw s && boundaryAfter (s.drop kw.length)

/-- The alternation `Allerg(?:ene|ien)|Icon|Info|Bio` matches here. -/
def legendHit (s : List Char) : Bool :=
  kwAtCI (sToL "allergene") s || kwAtCI (sToL "allergien") s ||
  kwAtCI (sToL "icon") s || kwAtCI (sToL "info") s || kwAtCI (sToL "bio") s

/-- Scanner of the legend substitution.  The text this is applied to has
already had every whitespace run collapsed to a single space, so it
contains no newline and `.*?$` extends the match to the end of the text:
everything from the first keyword occurrence on is dropped. -/
def legendGo : Option Char → List Char → List Char
  | _, [] => []
  | prev, c :: rest =>
    if boundaryBeforeO prev && legendHit (c :: rest) then []
    else c :: legendGo (some c) rest

/-- `re.sub(r"\b(Allerg(?:ene|ien)|Icon|Info|Bio)\b.*?$", "", text, IGNORECASE)`. -/
def stripLegend (s : List Char) : List Char := legendGo none s

-- § item extractor: the price pattern
-- (?P<title>.+?)\s*CHF\s*(?P<price>\d{1,2}[.,]\d{2})(?=\s*(?:[A-ZÄÖÜ]|$)|\s*CHF)
-- with re.IGNORECASE

/-- `CHF` (case-insensitive) as a prefix; returns the rest. -/
def chfPrefixCI : List Char → Option (List Char)
  | c :: h :: f :: rest =>
    if pyLowerChar c == 'c' && pyLowerChar h == 'h' && pyLowerChar f == 'f'
    then some rest else none
  | _ => none

/-- `\s*CHF` (case-insensitive): the whitespace is maximal-munch, which is
faithful because `\s` and `C`/`c` are disjoint. -/
def chfAfterWS (s : List Char) : Option (List Char) := chfPrefixCI (s.dropWhile isWS)

/-- `\d{1,2}[.,]\d{2}`: greedy on the digit count.  The two alternatives
are mutually exclusive (after one digit, a digit forces the two-digit
form, a separator the one-digit form), so no backtracking remains. -/
def parsePrice : List Char → Option (List Char × List Char)
  | d1 :: d2 :: rest =>
    if isDigitCh d1 then
      if isDigitCh d2 then
        match rest with
        | sep :: a :: b :: r =>
          if isSepCh sep && isDigitCh a && isDigitCh b
          then some ([d1, d2, sep, a, b], r) else none
        | _ => none
      else if isSepCh d2 then
        match rest with
        | a :: b :: r =>
          if isDigitCh a && isDigitCh b then some ([d1, d2, a, b], r) else none
        | _ => none
      else none
    else none
  | _ => none

/-- The lookahead `(?=\s*(?:[A-ZÄÖÜ]|$)|\s*CHF)`; under `re.IGNORECASE`
the class `[A-ZÄÖÜ]` matches any German letter. -/
def lookaheadOk (s : List Char) : Bool :=
  (match s.dropWhile isWS with
   | [] => true
   | c :: _ => isAlphaDE c) || (chfPrefixCI (s.dropWhile isWS)).isSome

/-- The part of the price pattern after the title: `\s*CHF\s*` then the
price, then the lookahead.  Returns the matched price characters and the
rest of the text after the match. -/
def tryTail (s : List Char) : Option (List Char × List Char) :=
  match chfAfterWS s with
  | none => none
  | some s2 =>
    match parsePrice (s2.dropWhile isWS) with
    | none => none
    | some pr => if lookaheadOk pr.2 then some pr else none

/-- Non-greedy growth of the title `.+?`: the shortest title (tried first)
for which the tail parses wins; `.` never matches a newline.  `acc` holds
the reversed title so far (always nonempty). -/
def growTitle : List Char → List Char → Option (List Char × List Char × List Char)
  | acc, [] =>
    (match tryTail [] with
     | some pr => some (acc.reverse, pr.1, pr.2)
     | none => none)
  | acc, c :: s' =>
    match tryTail (c :: s') with
    | some pr => some (acc.reverse, pr.1, pr.2)
    | none => if c == '\n' then none else growTitle (c :: acc) s'

/-- Attempt of the whole price pattern at one start position: the title
must take at least one character (not a newline). -/
def matchAt : List Char → Option (List Char × List Char × List Char)
  | [] => none
  | c :: s' => if c == '\n' then none else growTitle [c] s'

/-- `re.finditer` of the price pattern: leftmost matches, scanning resumes
after each match.  Fuel is the text length; each step consumes at least
one character. -/
def findMatchesGo : Nat → List Char → List (List Char × List Char)
  | 0, _ => []
  | _ + 1, [] => []
  | fuel + 1, c :: s' =>
    match matchAt (c :: s') with
    | some m => (m.1, m.2.1) :: findMatchesGo fuel m.2.2
    | none => findMatchesGo fuel s'

/-- All `(title, price)` matches of the price pattern, in text order. -/
def findMatches (s : List Char) : List (List Char × List Char) :=
  findMatchesGo s.length s

-- § item extractor: per-match cosmetic fixes and assembly

/-- The strip set of `title.strip(" ,;:-")`. -/
def stripSet1 (c : Char) : Bool :=
  c == ' ' || c == ',' || c == ';' || c == ':' || c == '-'

/-- The strip set of `t.strip(" ,;")` in the per-line fallback. -/
def stripSet2 (c : Char) : Bool := c == ' ' || c == ',' || c == ';'

/-- Worker for `str.replace(needle, rep)`: left-to-right, non-overlapping.
Fuel is the string length; the needle is nonempty here. -/
def replGo (needle rep : List Char) : Nat → List Char → List Char
  | 0, s => s
  | _ + 1, [] => []
  | fuel + 1, c :: rest =>
    if startsWithL needle (c :: rest) then
      rep ++ replGo needle rep fuel ((c :: rest).drop needle.length)
    else c :: replGo needle rep fuel rest

/-- `str.replace(needle, rep)` (all occurrences). -/
def replaceAll (needle rep s : List Char) : List Char := replGo needle rep s.length s

/-- `re.sub(r"([a-zäöü])([A-ZÄÖÜ])", r"\1 \2", title)`: insert a space at
each lowercase-to-uppercase boundary; matches do not overlap. -/
def camelSplit : List Char → List Char
  | a :: b :: rest =>
    if isLowerDE a && isUpperAOU b then a :: ' ' :: b :: camelSplit rest
    else a :: camelSplit (b :: rest)
  | s => s

/-- Worker for `re.sub(r"\s{2,}", " ", title)`: `pend` buffers the current
whitespace run (reversed); a run of length at least 2 becomes one space, a
single whitespace character is kept as it is. -/
def collapseMultiGo (pend : List Char) : List Char → List Char
  | [] => if 2 ≤ pend.length then [' '] else pend.reverse
  | c :: rest =>
    if isWS c then collapseMultiGo (c :: pend) rest
    else (if 2 ≤ pend.length then [' '] else pend.reverse) ++ c :: collapseMultiGo [] rest

/-- `re.sub(r"\s{2,}", " ", title)`. -/
def collapseMulti (s : List Char) : List Char := collapseMultiGo [] s

/-- `price.replace(",", ".")`. -/
def normPriceStr (p : List Char) : List Char :=
  p.map (fun c => if c == ',' then '.' else c)

/-- Title cleanup of `_extract_items_from_lines` (lines 83–89): strip
punctuation, the two soup word-merge fixes, the camel-case split, the
double-space collapse, in source order. -/
def cleanTitle (t : List Char) : List Char :=
  collapseMulti (camelSplit
    (replaceAll (sToL "Tagessuppegross") (sToL "Tagessuppe gross")
      (replaceAll (sToL "Tagessuppeklein") (sToL "Tagessuppe klein")
        (pyStrip stripSet1 t))))

/-- Per-match item assembly of `_extract_items_from_lines` (lines 83–92):
the item is kept only when the cleaned title is nonempty. -/
def mkItem (tp : List Char × List Char) : Option MenuItem :=
  if cleanTitle tp.1 = [] then none
  else some ⟨cleanTitle tp.1, some (normPriceStr tp.2)⟩

/-- Per-line fallback item of `_extract_items_from_lines` (lines 95–99):
`t = re.sub(r"\s+", " ", ln).strip(" ,;")`, kept when nonempty, price `None`. -/
def lineFallbackItem (ln : List Char) : Option MenuItem :=
  if pyStrip stripSet2 (collapseAllWS ln) = [] then none
  else some ⟨pyStrip stripSet2 (collapseAllWS ln), none⟩

/-- The cleaned text the price pattern runs on (lines 66–71):
`" ".join(lines)`, whitespace collapse and strip, allergen-code
substitution, legend substitution. -/
def cleanedText (lines : List (List Char)) : List Char :=
  stripLegend (stripAllergens (pyStrip isWS (collapseAllWS (joinSpace lines))))

/-- `_extract_items_from_lines` of `app.py`. -/
def extract_items_from_lines (lines : List (List Char)) : List MenuItem :=
  if ((findMatches (cleanedText lines)).filterMap mkItem).isEmpty
  then lines.filterMap lineFallbackItem
  else (findMatches (cleanedText lines)).filterMap mkItem

-- § parse_week_pdf, step 2: normalization and boilerplate filter

/-- One line of step 2 of `parse_week_pdf` (lines 180–188): desquash,
whitespace collapse and strip, drop empty lines and boilerplate
(lowercased line starting with `"menüplan"` or containing `"kw"`). -/
def normLineO (ln : List Char) : Option (List Char) :=
  let l2 := pyStrip isWS (collapseAllWS (squash_spaced_letters ln))
  if l2 = [] then none
  else if startsWithL (sToL "menüplan") (pyLowerStr l2) ||
          containsSub (sToL "kw") (pyLowerStr l2) then none
  else some l2

/-- Step 2 of `parse_week_pdf`: the normalized, filtered line sequence. -/
def normLines (rawLines : List (List Char)) : List (List Char) :=
  rawLines.filterMap normLineO

/-- Step 3's blob: `"\n".join(norm_lines).lower()`. -/
def blobOf (rawLines : List (List Char)) : List Char :=
  pyLowerStr (joinNL (normLines rawLines))

-- § parse_week_pdf, step 3: weekday locator and primary segmentation

/-- Match of one weekday pattern (letters interleaved with `\s*`, word
boundaries removed at line 193, case-insensitive) at the current
position.  The whitespace is maximal-munch, faithful because `\s` and the
pattern letters are disjoint. -/
def spacedAt : List Char → List Char → Bool
  | [], _ => true
  | [p], s =>
    (match s with
     | c :: _ => pyLowerChar c == p
     | [] => false)
  | p :: p2 :: ps, s =>
    (match s with
     | c :: s' => pyLowerChar c == p && spacedAt (p2 :: ps) (s'.dropWhile isWS)
     | [] => false)

/-- `re.search`: offset of the leftmost match of the spaced pattern. -/
def findSpaced (w : List Char) : List Char → Option Nat
  | [] => if spacedAt w [] then some 0 else none
  | c :: s' =>
    if spacedAt w (c :: s') then some 0 else (findSpaced w (c :: s').tail).map (· + 1)

/-- The weekday locator (lines 194–198): first-match offset of each
weekday, collected in canonical order; weekdays without a match are absent. -/
def computeHits (blob : List Char) : List (Weekday × Nat) :=
  WEEKDAY_ORDER.filterMap (fun wd => (findSpaced (wdLetters wd) blob).map (fun p => (wd, p)))

/-- Stable insertion of one hit by ascending offset (equal keys keep the
earlier element first, like Python's stable sort). -/
def insertHit (x : Weekday × Nat) : List (Weekday × Nat) → List (Weekday × Nat)
  | [] => [x]
  | y :: ys => if x.2 < y.2 then x :: y :: ys else y :: insertHit x ys

/-- `hits.sort(key=lambda x: x[1])`. -/
def sortHits : List (Weekday × Nat) → List (Weekday × Nat)
  | [] => []
  | x :: xs => insertHit x (sortHits xs)

/-- Segment construction (lines 203–206): each sorted hit's segment runs
from its own offset to the next hit's offset, or to the end of the blob
for the last hit. -/
def mkSegments (blob : List Char) : List (Weekday × Nat) → List (Weekday × List Char)
  | [] => []
  | (wd, p) :: rest =>
    (wd, pySlice blob p
      (match rest with
       | [] => blob.length
       | (_, q) :: _ => q)) :: mkSegments blob rest

/-- Dictionary lookup in `segments_by_pos`. -/
def segFind (wd : Weekday) (segs : List (Weekday × List Char)) : Option (List Char) :=
  (segs.find? (fun s => s.1 == wd)).map (fun s => s.2)

/-- Split at newline characters, keeping empty pieces (they are filtered
away by `segLines`; `str.splitlines` drops only a trailing empty piece). -/
def splitNL : List Char → List (List Char)
  | [] => [[]]
  | c :: rest =>
    if c == '\n' then [] :: splitNL rest
    else (c :: (splitNL rest).headD []) :: (splitNL rest).tail

/-- Segment to lines (lines 212–213): split the blob segment at newlines,
keep lines with non-whitespace content, each whitespace-collapsed and
stripped. -/
def segLines (seg : List Char) : List (List Char) :=
  (splitNL seg).filterMap
    (fun ln => if pyStrip isWS ln = [] then none else some (pyStrip isWS (collapseAllWS ln)))

/-- Steps 3 of `parse_week_pdf` (lines 190–214): the per-weekday results
after the primary strategy (before the fallback and the dedup).  When
fewer than two weekdays are located, all five lists stay empty. -/
def primaryStage (rawLines : List (List Char)) : List (Weekday × List MenuItem) :=
  if 2 ≤ (computeHits (blobOf rawLines)).length then
    WEEKDAY_ORDER.map (fun wd =>
      (wd, match segFind wd (mkSegments (blobOf rawLines)
                (sortHits (computeHits (blobOf rawLines)))) with
           | some seg => extract_items_from_lines (segLines seg)
           | none => []))
  else WEEKDAY_ORDER.map (fun wd => (wd, []))

-- § parse_week_pdf, step 4: marker-based fallback

/-- A fallback anchor line: contains both `"tagessuppe"` and `"klein"`
case-insensitively (line 219). -/
def isMarkerLine (ln : List Char) : Bool :=
  containsSub (sToL "tagessuppe") (pyLowerStr ln) &&
  containsSub (sToL "klein") (pyLowerStr ln)

/-- Indices of the anchor lines, counting from `i`. -/
def markerIdxFrom : Nat → List (List Char) → List Nat
  | _, [] => []
  | i, ln :: rest =>
    if isMarkerLine ln then i :: markerIdxFrom (i + 1) rest
    else markerIdxFrom (i + 1) rest

/-- `marker_idx` of line 218: indices of all anchor lines. -/
def markerIdx (norm : List (List Char)) : List Nat := markerIdxFrom 0 norm

/-- `not any(results.values())`: every weekday's list is empty. -/
def allEmptyA (m : List (Weekday × List MenuItem)) : Bool :=
  m.all (fun p => p.2.isEmpty)

/-- The five fallback blocks (lines 221–225): block `i` spans the lines
from anchor `i` to anchor `i+1` (or to the end of the line sequence when
there is no anchor `i+1`).  Only evaluated under the ≥ 5 anchors guard. -/
def fallbackBlocks (M : List Nat) (norm : List (List Char)) : List (List (List Char)) :=
  (List.range 5).map (fun i =>
    pySlice norm (M.getD i 0)
      (if i + 1 < M.length then M.getD (i + 1) 0 else norm.length))

/-- Step 4 of `parse_week_pdf` (lines 216–227): when the result so far is
entirely empty and at least 5 anchors exist, re-segment by anchor blocks
assigned to the weekdays in canonical order; otherwise keep the result. -/
def fallbackStage (rawLines : List (List Char))
    (primary : List (Weekday × List MenuItem)) : List (Weekday × List MenuItem) :=
  if allEmptyA primary then
    if 5 ≤ (markerIdx (normLines rawLines)).length then
      (WEEKDAY_ORDER.zip (fallbackBlocks (markerIdx (normLines rawLines))
          (normLines rawLines))).map
        (fun p => (p.1, extract_items_from_lines p.2))
    else primary
  else primary

-- § parse_week_pdf, step 5: dedup

/-- The dedup key `(it["title"].lower(), it.get("price_chf"))`. -/
def itemKey (it : MenuItem) : List Char × Option (List Char) :=
  (pyLowerStr it.title, it.price_chf)

/-- The dedup loop of lines 230–239 with its `seen` set. -/
def dedupGo : List (List Char × Option (List Char)) → List MenuItem → List MenuItem
  | _, [] => []
  | seen, it :: rest =>
    if itemKey it ∈ seen then dedupGo seen rest
    else it :: dedupGo (itemKey it :: seen) rest

/-- Per-weekday deduplication: keep the first occurrence of each key. -/
def dedupItems (l : List MenuItem) : List MenuItem := dedupGo [] l

/-- `parse_week_pdf` of `app.py` from the point where the text lines have
been extracted from the PDF (step 1, `pdfplumber`, is an external
collaborator): normalization, primary segmentation, marker fallback,
deduplication. -/
def parse_week_pdf_lines (rawLines : List (List Char)) : List (Weekday × List MenuItem) :=
  (fallbackStage rawLines (primaryStage rawLines)).map (fun p => (p.1, dedupItems p.2))

-- § process-wide state (the cached source-URL variable)

/-- The process-wide mutable state of `app.py`: the module-level
`_cached_pdf_url` variable. -/
abbrev ProcState := Option (List Char)

/-- `get_cached_pdf_url` as a state transformer. -/
def get_cached_pdf_url (st : ProcState) : ProcState × Option (List Char) := (st, st)

/-- `set_cached_pdf_url` as a state transformer (only ever called from the
fetch layer, never from the parser). -/
def set_cached_pdf_url (st : ProcState) (url : List Char) : ProcState :=
  let _ := st
  some url

/-- `parse_week_pdf` as a state transformer over the process-wide state.
The body of `parse_week_pdf` (lines 148–241) references no module-level
mutable variable — in particular not `_cached_pdf_url` — so its faithful
state-passing embedding returns the state unchanged and a result that
does not depend on it. -/
def parse_week_pdf_st (st : ProcState) (rawLines : List (List Char)) :
    ProcState × List (Weekday × List MenuItem) :=
  (st, parse_week_pdf_lines rawLines)

-- § concrete inputs used by the witness theorems

/-- Witness input: two lines, each carrying a weekday heading and a
priced dish, so the primary segmentation applies. -/
def wLines2 : List (List Char) :=
  [sToL "montag pasta chf 7.20", sToL "dienstag reis chf 8.00"]

/-- Witness input: no weekday headings, five anchor lines. -/
def wLinesAnchors : List (List Char) :=
  [sToL "tagessuppe klein a", sToL "x", sToL "tagessuppe klein b",
   sToL "tagessuppe klein c", sToL "tagessuppe klein d",
   sToL "tagessuppe klein e", sToL "y"]

/-- Witness input: lines without any currency marker. -/
def wLinesNoPrice : List (List Char) := [sToL "salat", sToL "  ", sToL "brot,"]

/-- Witness blob: two weekday headings. -/
def wBlob2 : List Char := sToL "montag x dienstag"

/-- Witness item: produced for Monday from `wLines2`. -/
def wItemMon : MenuItem := ⟨sToL "montag pasta", some (sToL "7.20")⟩

/-- Default hit used by `List.getD` in indexed statements. -/
def dHit : Weekday × Nat := (Weekday.montag, 0)

/-- Default segment used by `List.getD` in indexed statements. -/
def dSeg : Weekday × List Char := (Weekday.montag, [])
/-- No character of the string is in the uppercase class `[A-ZÄÖÜ]`. -/
def NoUpper (s : List Char) : Prop := ∀ c ∈ s, isUpperAOU c = false

-- § helper lemmas about `splitWS` and `fixWord`

/-- Words produced by `splitWSGo` contain no whitespace, provided the
accumulator contains none. -/
theorem splitWSGo_no_ws (s : List Char) :
    ∀ (acc : List Char), (∀ c ∈ acc, isWS c = false) →
      ∀ w ∈ splitWSGo acc s, ∀ c ∈ w, isWS c = false := by
  induction s with
  | nil =>
    intro acc hacc w hw c hc
    simp only [splitWSGo] at hw
    split at hw
    · simp at hw
    · simp only [List.mem_singleton] at hw
      subst hw
      exact hacc c (List.mem_reverse.mp hc)
  | cons d rest ih =>
    intro acc hacc w hw c hc
    simp only [splitWSGo] at hw
    by_cases hd : isWS d
    · rw [if_pos hd] at hw
      split at hw
      · exact ih [] (by simp) w hw c hc
      · rcases List.mem_cons.mp hw with h1 | h2
        · subst h1
          exact hacc c (List.mem_reverse.mp hc)
        · exact ih [] (by simp) w h2 c hc
    · rw [if_neg hd] at hw
      refine ih (d :: acc) ?_ w hw c hc
      intro e he
      rcases List.mem_cons.mp he with h1 | h2
      · subst h1; exact Bool.eq_false_iff.mpr hd
      · exact hacc e h2

/-- `fixWord` is the identity on whitespace-free words: there is no
whitespace to remove even when the spaced-letter pattern matches. -/
theorem fixWord_id_of_no_ws (w : List Char) (h : ∀ c ∈ w, isWS c = false) :
    fixWord w = w := by
  unfold fixWord
  split
  · exact List.filter_eq_self.mpr (fun c hc => by simp [h c hc])
  · rfl

/-- C9: `_squash_spaced_letters` is extensionally plain whitespace-run
collapsing, `" ".join(s.split())`: the input is split on whitespace before
the 3-or-more-letter test, so no candidate word ever contains whitespace
and the per-word rewrite is a no-op. -/
theorem squash_eq_plain_collapse (s : List Char) :
    squash_spaced_letters s = plainWSCollapse s := by
  unfold squash_spaced_letters plainWSCollapse
  congr 1
  have hws := splitWSGo_no_ws s [] (by simp)
  calc (splitWS s).map fixWord
      = (splitWS s).map id := by
        refine List.map_congr_left ?_
        intro w hw
        exact fixWord_id_of_no_ws w (hws w hw)
    _ = splitWS s := List.map_id _

/-- C1 (bug evidence): the desquash normalizer leaves the spaced heading
`"M O N T A G"` completely unchanged — contradicting the function's own
docstring and the call-site comment `"M O N T A G" -> "MONTAG"` — because
the string is split on whitespace first, so every candidate word is a
single letter and never fullmatches the 3-or-more-letter pattern.  The
heading is nonetheless recognized by the Weekday Locator, whose patterns
tolerate whitespace between the letters. -/
theorem squash_MONTAG_unchanged :
    squash_spaced_letters (sToL "M O N T A G") = sToL "M O N T A G" ∧
    findSpaced (wdLetters Weekday.montag) (pyLowerStr (sToL "M O N T A G")) = some 0 := by
  decide


/-- C5: the Item Extractor applied to the single line
`"Tagessuppe klein CHF 4.50 Pouletgeschnetzeltes CHF 12.90"` returns
exactly two items in order: `("Tagessuppe klein", "4.50")` and
`("Pouletgeschnetzeltes", "12.90")`. -/
theorem extract_two_items_example :
    extract_items_from_lines
        [sToL "Tagessuppe klein CHF 4.50 Pouletgeschnetzeltes CHF 12.90"] =
      [⟨sToL "Tagessuppe klein", some (sToL "4.50")⟩,
       ⟨sToL "Pouletgeschnetzeltes", some (sToL "12.90")⟩] := by decide

/-- C6: when the price pattern produces zero matches on the segment's
cleaned text, the Item Extractor returns one item per non-empty input
line — each line whitespace-normalized and punctuation-trimmed as the
title — with price `None`, in line order. -/
theorem extract_fallback_on_no_matches (lines : List (List Char))
    (h : findMatches (cleanedText lines) = []) :
    extract_items_from_lines lines = lines.filterMap lineFallbackItem := by
  unfold extract_items_from_lines
  rw [h]
  rfl

/-- Witness for C6 at a concrete price-free input. -/
theorem extract_fallback_on_no_matches_witness :
    findMatches (cleanedText wLinesNoPrice) = [] ∧
    extract_items_from_lines wLinesNoPrice = wLinesNoPrice.filterMap lineFallbackItem :=
  ⟨by decide, extract_fallback_on_no_matches wLinesNoPrice (by decide)⟩

/-- C8: the parser is deterministic and side-effect-free as a state
transformer over the process-wide state (the cached source-URL variable):
it returns the state unchanged, its result equals the pure parse of the
line sequence, and the result does not depend on the incoming state. -/
theorem parse_week_pdf_pure (st st' : ProcState) (rawLines : List (List Char)) :
    (parse_week_pdf_st st rawLines).1 = st ∧
    (parse_week_pdf_st st rawLines).2 = parse_week_pdf_lines rawLines ∧
    (parse_week_pdf_st st rawLines).2 = (parse_week_pdf_st st' rawLines).2 :=
  ⟨rfl, rfl, rfl⟩

-- § deduplicator lemmas (C7)

/-- `dedupGo` only looks at the `seen` set through membership. -/
theorem dedupGo_congr (L : List MenuItem) :
    ∀ s1 s2, (∀ k, k ∈ s1 ↔ k ∈ s2) → dedupGo s1 L = dedupGo s2 L := by
  induction L with
  | nil => intros; rfl
  | cons it rest ih =>
    intro s1 s2 h
    simp only [dedupGo]
    by_cases hm : itemKey it ∈ s1
    · rw [if_pos hm, if_pos ((h _).mp hm)]
      exact ih s1 s2 h
    · rw [if_neg hm, if_neg (fun hc => hm ((h _).mpr hc))]
      refine congrArg _ (ih _ _ ?_)
      intro k
      simp only [List.mem_cons]
      exact or_congr Iff.rfl (h k)

/-- Adding a key to the `seen` set is the same as pre-filtering every
item with that key out of the input. -/
theorem dedupGo_filter (k : List Char × Option (List Char)) (L : List MenuItem) :
    ∀ s, dedupGo (k :: s) L = dedupGo s (L.filter (fun y => decide (itemKey y ≠ k))) := by
  induction L with
  | nil => intro s; rfl
  | cons it rest ih =>
    intro s
    simp only [dedupGo, List.filter_cons]
    by_cases hk : itemKey it = k
    · rw [if_pos (show itemKey it ∈ k :: s by simp [hk])]
      rw [if_neg (show ¬(decide (itemKey it ≠ k) = true) by simp [hk])]
      exact ih s
    · rw [if_pos (show decide (itemKey it ≠ k) = true by simp [hk])]
      by_cases hs : itemKey it ∈ s
      · rw [if_pos (List.mem_cons_of_mem _ hs)]
        simp only [dedupGo]
        rw [if_pos hs]
        exact ih s
      · rw [if_neg (show itemKey it ∉ k :: s by simp [hk, hs])]
        simp only [dedupGo]
        rw [if_neg hs]
        refine congrArg _ ?_
        calc dedupGo (itemKey it :: k :: s) rest
            = dedupGo (k :: itemKey it :: s) rest := by
              refine dedupGo_congr rest _ _ ?_
              intro k'
              simp only [List.mem_cons]
              tauto
          _ = dedupGo (itemKey it :: s) (rest.filter (fun y => decide (itemKey y ≠ k))) :=
              ih (itemKey it :: s)

/-- First-occurrence recursion equation of the deduplicator: the head is
kept in place and every later item with an identical key is removed. -/
theorem dedupItems_cons (x : MenuItem) (L : List MenuItem) :
    dedupItems (x :: L) =
      x :: dedupItems (L.filter (fun y => decide (itemKey y ≠ itemKey x))) := by
  unfold dedupItems
  simp only [dedupGo]
  rw [if_neg (by simp)]
  exact congrArg _ (dedupGo_filter (itemKey x) L [])

/-- The deduplicator output is a sublist of its input (order preserved). -/
theorem dedupGo_sublist (L : List MenuItem) : ∀ s, (dedupGo s L).Sublist L := by
  induction L with
  | nil => intro s; exact List.Sublist.refl []
  | cons it rest ih =>
    intro s
    simp only [dedupGo]
    split
    · exact (ih s).cons it
    · exact (ih _).cons₂ it

/-- Idempotence and key-uniqueness of the deduplicator, by strong
induction on the list length. -/
theorem dedup_idem_nodup_aux :
    ∀ n (L : List MenuItem), L.length ≤ n →
      dedupItems (dedupItems L) = dedupItems L ∧ ((dedupItems L).map itemKey).Nodup := by
  intro n
  induction n with
  | zero =>
    intro L hL
    have : L = [] := List.eq_nil_of_length_eq_zero (Nat.le_zero.mp hL)
    subst this
    exact ⟨rfl, by simp [dedupItems, dedupGo]⟩
  | succ n ih =>
    intro L hL
    cases L with
    | nil => exact ⟨rfl, by simp [dedupItems, dedupGo]⟩
    | cons x L' =>
      have hlen : (L'.filter (fun y => decide (itemKey y ≠ itemKey x))).length ≤ n :=
        le_trans (List.length_filter_le _ _) (Nat.le_of_succ_le_succ hL)
      obtain ⟨ihIdem, ihNodup⟩ := ih _ hlen
      rw [dedupItems_cons]
      have hkeys : ∀ y ∈ dedupItems (L'.filter (fun y => decide (itemKey y ≠ itemKey x))),
          itemKey y ≠ itemKey x := by
        intro y hy
        have hyf : y ∈ L'.filter (fun y => decide (itemKey y ≠ itemKey x)) :=
          (dedupGo_sublist _ []).subset hy
        simpa using List.of_mem_filter hyf
      constructor
      · rw [dedupItems_cons]
        have hfil : (dedupItems (L'.filter (fun y => decide (itemKey y ≠ itemKey x)))).filter
              (fun y => decide (itemKey y ≠ itemKey x)) =
            dedupItems (L'.filter (fun y => decide (itemKey y ≠ itemKey x))) := by
          refine List.filter_eq_self.mpr ?_
          intro y hy
          simpa using hkeys y hy
        rw [hfil, ihIdem]
      · simp only [List.map_cons, List.nodup_cons]
        refine ⟨?_, ihNodup⟩
        intro hmem
        obtain ⟨y, hy, hky⟩ := List.mem_map.mp hmem
        exact hkeys y hy hky

/-- C7: the Deduplicator is idempotent and order-preserving: its output
is a sublist of the input (first occurrences keep their relative
positions), output keys `(title.lowercased, price)` are pairwise
distinct, and the recursion equation shows that exactly the later items
sharing the head's key are removed. -/
theorem dedup_idempotent_first_occurrence :
    (∀ L : List MenuItem,
        dedupItems (dedupItems L) = dedupItems L ∧
        (dedupItems L).Sublist L ∧
        ((dedupItems L).map itemKey).Nodup) ∧
    (∀ (x : MenuItem) (L : List MenuItem),
        dedupItems (x :: L) =
          x :: dedupItems (L.filter (fun y => decide (itemKey y ≠ itemKey x)))) := by
  constructor
  · intro L
    obtain ⟨h1, h2⟩ := dedup_idem_nodup_aux L.length L (Nat.le_refl _)
    exact ⟨h1, dedupGo_sublist L [], h2⟩
  · exact dedupItems_cons

-- § key-set lemmas (C2) and fallback control flow (C4)

/-- The primary stage always produces exactly the five canonical keys. -/
theorem primaryStage_keys (rawLines : List (List Char)) :
    (primaryStage rawLines).map Prod.fst = WEEKDAY_ORDER := by
  unfold primaryStage
  split <;> simp [List.map_map, Function.comp_def]

/-- The fallback blocks list always has exactly five blocks. -/
theorem fallbackBlocks_length (M : List Nat) (norm : List (List Char)) :
    (fallbackBlocks M norm).length = 5 := by
  simp [fallbackBlocks]

/-- The fallback stage preserves the exact five canonical keys. -/
theorem fallbackStage_keys (rawLines : List (List Char))
    (primary : List (Weekday × List MenuItem))
    (hp : primary.map Prod.fst = WEEKDAY_ORDER) :
    (fallbackStage rawLines primary).map Prod.fst = WEEKDAY_ORDER := by
  unfold fallbackStage
  split
  · split
    · rw [List.map_map]
      have hz : (WEEKDAY_ORDER.zip (fallbackBlocks (markerIdx (normLines rawLines))
          (normLines rawLines))).map Prod.fst = WEEKDAY_ORDER := by
        refine List.map_fst_zip _ _ ?_
        rw [fallbackBlocks_length]
        rfl
      simpa [Function.comp] using hz
    · exact hp
  · exact hp

/-- When fewer than two weekdays are located, the primary stage binds all
five keys to the empty list. -/
theorem primaryStage_of_few_hits (rawLines : List (List Char))
    (h : (computeHits (blobOf rawLines)).length < 2) :
    primaryStage rawLines = WEEKDAY_ORDER.map (fun wd => (wd, ([] : List MenuItem))) := by
  unfold primaryStage
  rw [if_neg (by omega)]

/-- C2: `parse_week_pdf` always returns a mapping with exactly the five
canonical weekday keys in canonical order, and when neither the primary
segmentation (fewer than two located weekdays) nor the marker fallback
(fewer than five anchors) applies, all five lists are empty — the
function is total, so no exception is possible. -/
theorem parse_week_pdf_keys_and_degrade (rawLines : List (List Char)) :
    (parse_week_pdf_lines rawLines).map Prod.fst = WEEKDAY_ORDER ∧
    ((computeHits (blobOf rawLines)).length < 2 →
      (markerIdx (normLines rawLines)).length < 5 →
      ∀ p ∈ parse_week_pdf_lines rawLines, p.2 = []) := by
  constructor
  · unfold parse_week_pdf_lines
    rw [List.map_map]
    have := fallbackStage_keys rawLines _ (primaryStage_keys rawLines)
    simpa [Function.comp] using this
  · intro h2 h5 p hp
    unfold parse_week_pdf_lines at hp
    obtain ⟨q, hq, rfl⟩ := List.mem_map.mp hp
    suffices hq2 : q.2 = [] by simp [hq2, dedupItems, dedupGo]
    have hprim := primaryStage_of_few_hits rawLines h2
    have hempty : allEmptyA (primaryStage rawLines) = true := by
      rw [hprim]; rfl
    unfold fallbackStage at hq
    rw [hempty] at hq
    simp only [if_true] at hq
    rw [if_neg (by omega)] at hq
    rw [hprim] at hq
    obtain ⟨wd, _, hwq⟩ := List.mem_map.mp hq
    rw [← hwq]

/-- Witness for C2 at the empty line sequence. -/
theorem parse_week_pdf_keys_and_degrade_witness :
    (computeHits (blobOf [])).length < 2 ∧
    (markerIdx (normLines [])).length < 5 ∧
    ∀ p ∈ parse_week_pdf_lines ([] : List (List Char)), p.2 = [] :=
  ⟨by decide, by decide,
   (parse_week_pdf_keys_and_degrade []).2 (by decide) (by decide)⟩

/-- C4: the marker fallback runs exactly when the primary result is
entirely empty: with a non-empty primary result the parse is the
deduplicated primary result; with an empty primary result and fewer than
five anchor lines everything stays empty; with an empty primary result
and at least five anchor lines the normalized lines are partitioned into
five blocks — block `i` from anchor `i` inclusive to anchor `i+1`
exclusive, or to the end of the sequence when there is no anchor `i+1` —
assigned to the canonical weekdays in order. -/
theorem fallback_trigger_and_blocks (rawLines : List (List Char)) :
    (allEmptyA (primaryStage rawLines) = false →
      parse_week_pdf_lines rawLines =
        (primaryStage rawLines).map (fun p => (p.1, dedupItems p.2))) ∧
    (allEmptyA (primaryStage rawLines) = true →
      (markerIdx (normLines rawLines)).length < 5 →
      ∀ p ∈ parse_week_pdf_lines rawLines, p.2 = []) ∧
    (allEmptyA (primaryStage rawLines) = true →
      5 ≤ (markerIdx (normLines rawLines)).length →
      parse_week_pdf_lines rawLines =
        (WEEKDAY_ORDER.zip (fallbackBlocks (markerIdx (normLines rawLines))
            (normLines rawLines))).map
          (fun p => (p.1, dedupItems (extract_items_from_lines p.2)))) := by
  refine ⟨?_, ?_, ?_⟩
  · intro hne
    unfold parse_week_pdf_lines fallbackStage
    rw [hne]
    simp
  · intro hem h5 p hp
    unfold parse_week_pdf_lines at hp
    obtain ⟨q, hq, rfl⟩ := List.mem_map.mp hp
    suffices hq2 : q.2 = [] by simp [hq2, dedupItems, dedupGo]
    unfold fallbackStage at hq
    rw [hem] at hq
    simp only [if_true] at hq
    rw [if_neg (by omega)] at hq
    have hall := List.all_eq_true.mp hem q hq
    simpa using hall
  · intro hem h5
    unfold parse_week_pdf_lines fallbackStage
    rw [hem]
    simp only [if_true]
    rw [if_pos h5]
    rw [List.map_map]
    rfl

/-- Witness for C4 at an input with an empty primary result and five
anchor lines, exercising the block partition. -/
theorem fallback_trigger_and_blocks_witness :
    allEmptyA (primaryStage wLinesAnchors) = true ∧
    5 ≤ (markerIdx (normLines wLinesAnchors)).length ∧
    parse_week_pdf_lines wLinesAnchors =
      (WEEKDAY_ORDER.zip (fallbackBlocks (markerIdx (normLines wLinesAnchors))
          (normLines wLinesAnchors))).map
        (fun p => (p.1, dedupItems (extract_items_from_lines p.2))) :=
  ⟨by decide, by decide,
   (fallback_trigger_and_blocks wLinesAnchors).2.2 (by decide) (by decide)⟩

-- § segmentation lemmas (C3)

/-- Membership in an insertion step. -/
theorem mem_insertHit (x z : Weekday × Nat) (ys : List (Weekday × Nat)) :
    z ∈ insertHit x ys ↔ z = x ∨ z ∈ ys := by
  induction ys with
  | nil => simp [insertHit]
  | cons y ys ih =>
    simp only [insertHit]
    split
    · simp [List.mem_cons]
    · simp only [List.mem_cons, ih]
      tauto

/-- Insertion preserves sortedness by offset. -/
theorem insertHit_pairwise (x : Weekday × Nat) (ys : List (Weekday × Nat))
    (h : List.Pairwise (fun a b : Weekday × Nat => a.2 ≤ b.2) ys) :
    List.Pairwise (fun a b : Weekday × Nat => a.2 ≤ b.2) (insertHit x ys) := by
  induction ys with
  | nil => simp [insertHit]
  | cons y ys ih =>
    simp only [insertHit]
    rw [List.pairwise_cons] at h
    obtain ⟨hy, hys⟩ := h
    split
    · rename_i hlt
      refine List.pairwise_cons.mpr ⟨?_, List.pairwise_cons.mpr ⟨hy, hys⟩⟩
      intro z hz
      rcases List.mem_cons.mp hz with h1 | h2
      · subst h1; exact Nat.le_of_lt hlt
      · exact le_trans (Nat.le_of_lt hlt) (hy z h2)
    · rename_i hge
      refine List.pairwise_cons.mpr ⟨?_, ih hys⟩
      intro z hz
      rcases (mem_insertHit x z ys).mp hz with h1 | h2
      · subst h1; omega
      · exact hy z h2

/-- The sort is sorted by offset. -/
theorem sortHits_pairwise (l : List (Weekday × Nat)) :
    List.Pairwise (fun a b : Weekday × Nat => a.2 ≤ b.2) (sortHits l) := by
  induction l with
  | nil => simp [sortHits]
  | cons x xs ih => exact insertHit_pairwise x (sortHits xs) ih

/-- The sort neither adds nor removes hits. -/
theorem mem_sortHits (l : List (Weekday × Nat)) (z : Weekday × Nat) :
    z ∈ sortHits l ↔ z ∈ l := by
  induction l with
  | nil => simp [sortHits]
  | cons x xs ih =>
    simp only [sortHits, mem_insertHit, List.mem_cons, ih]

/-- The sort preserves the number of hits. -/
theorem sortHits_length (l : List (Weekday × Nat)) :
    (sortHits l).length = l.length := by
  induction l with
  | nil => rfl
  | cons x xs ih =>
    have hins : ∀ ys, (insertHit x ys).length = ys.length + 1 := by
      intro ys
      induction ys with
      | nil => rfl
      | cons y ys ihy =>
        simp only [insertHit]
        split
        · simp
        · simp [ihy]
    simp [sortHits, hins, ih]

/-- A located offset never exceeds the blob length. -/
theorem findSpaced_le (w : List Char) :
    ∀ s n, findSpaced w s = some n → n ≤ s.length := by
  intro s
  induction s with
  | nil =>
    intro n h
    simp only [findSpaced] at h
    split at h
    · simp at h; omega
    · simp at h
  | cons c s' ih =>
    intro n h
    simp only [findSpaced] at h
    split at h
    · simp at h; omega
    · simp only [List.tail_cons, Option.map_eq_some'] at h
      obtain ⟨m, hm, rfl⟩ := h
      have := ih m hm
      simp
      omega

/-- Every located hit's offset is at most the blob length. -/
theorem computeHits_le (blob : List Char) :
    ∀ x ∈ computeHits blob, x.2 ≤ blob.length := by
  intro x hx
  unfold computeHits at hx
  obtain ⟨wd, _, hmap⟩ := List.mem_filterMap.mp hx
  rw [Option.map_eq_some'] at hmap
  obtain ⟨p, hp, hx2⟩ := hmap
  rw [← hx2]
  exact findSpaced_le _ blob p hp

/-- The segments carry the same weekdays in the same order as the hits. -/
theorem mkSegments_map_fst (blob : List Char) :
    ∀ h : List (Weekday × Nat), (mkSegments blob h).map Prod.fst = h.map Prod.fst := by
  intro h
  induction h with
  | nil => rfl
  | cons x rest ih =>
    obtain ⟨wd, p⟩ := x
    simp only [mkSegments, List.map_cons, ih]

/-- Exact boundaries of each segment: from its own offset to the next
hit's offset, or to the end of the blob for the last hit. -/
theorem mkSegments_getD (blob : List Char) :
    ∀ (h : List (Weekday × Nat)) (i : Nat), i < h.length →
      (mkSegments blob h).getD i dSeg =
        ((h.getD i dHit).1,
         pySlice blob (h.getD i dHit).2
           (if i + 1 < h.length then (h.getD (i + 1) dHit).2 else blob.length)) := by
  intro h
  induction h with
  | nil => intro i hi; simp at hi
  | cons x rest ih =>
    intro i hi
    obtain ⟨wd, p⟩ := x
    cases i with
    | zero =>
      cases rest with
      | nil => simp [mkSegments, pySlice]
      | cons y rest' =>
        obtain ⟨wd2, q⟩ := y
        simp [mkSegments, List.getD_cons_zero, List.getD_cons_succ]
    | succ i' =>
      have hi' : i' < rest.length := by simpa using hi
      have := ih i' hi'
      simp only [mkSegments, List.getD_cons_succ, List.length_cons]
      rw [this]
      by_cases hc : i' + 1 < rest.length
      · rw [if_pos hc, if_pos (by omega)]
      · rw [if_neg hc, if_neg (by omega)]

/-- Concatenating the segments of a sorted, in-range hit list recovers
the blob from the first offset on: the partition has no gap and no
overlap. -/
theorem mkSegments_join (blob : List Char) :
    ∀ h : List (Weekday × Nat),
      List.Pairwise (fun a b : Weekday × Nat => a.2 ≤ b.2) h →
      (∀ x ∈ h, x.2 ≤ blob.length) → h ≠ [] →
      ((mkSegments blob h).map Prod.snd).flatten = blob.drop (h.getD 0 dHit).2 := by
  intro h
  induction h with
  | nil => intro _ _ hne; exact absurd rfl hne
  | cons x rest ih =>
    intro hpw hle _
    obtain ⟨wd, p⟩ := x
    cases rest with
    | nil =>
      simp only [mkSegments, List.map_cons, List.map_nil, List.flatten_cons,
        List.flatten_nil, List.append_nil]
      have hp : p ≤ blob.length := hle (wd, p) (by simp)
      simp only [pySlice, List.getD_cons_zero]
      have : (blob.drop p).length = blob.length - p := List.length_drop p blob
      rw [List.take_of_length_le (by omega)]
    | cons y rest' =>
      obtain ⟨wd2, q⟩ := y
      rw [List.pairwise_cons] at hpw
      obtain ⟨hxle, hpw'⟩ := hpw
      have hpq : p ≤ q := hxle (wd2, q) (by simp)
      have hq : q ≤ blob.length := hle (wd2, q) (by simp)
      have hrest := ih hpw' (fun z hz => hle z (List.mem_cons_of_mem _ hz)) (by simp)
      simp only [mkSegments, List.map_cons, List.flatten_cons] at hrest ⊢
      rw [hrest]
      simp only [pySlice, List.getD_cons_zero]
      have hdd : blob.drop q = (blob.drop p).drop (q - p) := by
        rw [List.drop_drop]
        congr 1
        omega
      rw [hdd]
      exact List.take_append_drop (q - p) (blob.drop p)

/-- C3: with at least two located weekdays, the sorted hit list is
ordered by offset; the segment at sort position `i` is exactly
`blob[o_i : o_(i+1)]` (to the end of the blob for the last); the
concatenation of the segments in sort order is exactly the blob from the
first offset to the end (no gap, no overlap); and a weekday without a
located offset receives no segment. -/
theorem primary_segment_boundaries (blob : List Char)
    (h2 : 2 ≤ (computeHits blob).length) :
    List.Pairwise (fun a b : Weekday × Nat => a.2 ≤ b.2) (sortHits (computeHits blob)) ∧
    (∀ i, i < (sortHits (computeHits blob)).length →
      (mkSegments blob (sortHits (computeHits blob))).getD i dSeg =
        (((sortHits (computeHits blob)).getD i dHit).1,
         pySlice blob ((sortHits (computeHits blob)).getD i dHit).2
           (if i + 1 < (sortHits (computeHits blob)).length
            then ((sortHits (computeHits blob)).getD (i + 1) dHit).2
            else blob.length))) ∧
    ((mkSegments blob (sortHits (computeHits blob))).map Prod.snd).flatten =
      blob.drop (((sortHits (computeHits blob)).getD 0 dHit).2) ∧
    (∀ wd : Weekday, wd ∉ (computeHits blob).map Prod.fst →
      segFind wd (mkSegments blob (sortHits (computeHits blob))) = none) := by
  refine ⟨sortHits_pairwise _, mkSegments_getD blob _, ?_, ?_⟩
  · refine mkSegments_join blob _ (sortHits_pairwise _) ?_ ?_
    · intro x hx
      exact computeHits_le blob x ((mem_sortHits _ x).mp hx)
    · intro hnil
      rw [← List.length_eq_zero, sortHits_length] at hnil
      omega
  · intro wd hwd
    unfold segFind
    rw [List.find?_eq_none.mpr, Option.map_none']
    intro x hx
    have hx1 : x.1 ∈ (mkSegments blob (sortHits (computeHits blob))).map Prod.fst :=
      List.mem_map_of_mem Prod.fst hx
    rw [mkSegments_map_fst] at hx1
    obtain ⟨z, hz, hz1⟩ := List.mem_map.mp hx1
    have hzh : z ∈ computeHits blob := (mem_sortHits _ z).mp hz
    intro hbeq
    apply hwd
    have hx1wd : x.1 = wd := by simpa using hbeq
    rw [← hx1wd, ← hz1]
    exact List.mem_map_of_mem Prod.fst hzh

/-- Witness for C3 at a blob containing two weekday headings. -/
theorem primary_segment_boundaries_witness :
    2 ≤ (computeHits wBlob2).length ∧
    ((mkSegments wBlob2 (sortHits (computeHits wBlob2))).map Prod.snd).flatten =
      wBlob2.drop (((sortHits (computeHits wBlob2)).getD 0 dHit).2) :=
  ⟨by decide, (primary_segment_boundaries wBlob2 (by decide)).2.2.1⟩

-- § lowercase-title lemmas (C10)

/-- Lowercasing never produces a character of the class `[A-ZÄÖÜ]`. -/
theorem pyLowerChar_not_upper (c : Char) : isUpperAOU (pyLowerChar c) = false := by
  unfold pyLowerChar
  cases hf : upperLowerPairs.find? (fun p => p.1 == c) with
  | none =>
    simp only [Option.map_none', Option.getD_none]
    unfold isUpperAOU
    rw [List.any_eq_false]
    intro p hp
    have := List.find?_eq_none.mp hf p hp
    simpa using this
  | some p =>
    simp only [Option.map_some', Option.getD_some]
    have hp : p ∈ upperLowerPairs := List.mem_of_find?_eq_some hf
    fin_cases hp <;> decide

/-- A lowercased string has no uppercase character. -/
theorem noUpper_pyLowerStr (s : List Char) : NoUpper (pyLowerStr s) := by
  intro c hc
  obtain ⟨d, _, rfl⟩ := List.mem_map.mp hc
  exact pyLowerChar_not_upper d

/-- Characters of a collapsed string are spaces or input characters. -/
theorem mem_collapseGo (c : Char) :
    ∀ (b : Bool) (s : List Char), c ∈ collapseGo b s → c = ' ' ∨ c ∈ s := by
  intro b s
  induction s generalizing b with
  | nil => intro h; simp [collapseGo] at h
  | cons d rest ih =>
    intro h
    simp only [collapseGo] at h
    split at h
    · split at h
      · rcases ih true h with h1 | h2
        · exact Or.inl h1
        · exact Or.inr (List.mem_cons_of_mem _ h2)
      · rcases List.mem_cons.mp h with h1 | h2
        · exact Or.inl h1
        · rcases ih true h2 with h3 | h4
          · exact Or.inl h3
          · exact Or.inr (List.mem_cons_of_mem _ h4)
    · rcases List.mem_cons.mp h with h1 | h2
      · exact Or.inr (h1 ▸ List.mem_cons_self d rest)
      · rcases ih false h2 with h3 | h4
        · exact Or.inl h3
        · exact Or.inr (List.mem_cons_of_mem _ h4)

/-- Characters survive `dropWhile`. -/
theorem mem_of_mem_dropWhile (p : Char → Bool) (c : Char) :
    ∀ s : List Char, c ∈ s.dropWhile p → c ∈ s := by
  intro s
  induction s with
  | nil => intro h; simp at h
  | cons d rest ih =>
    intro h
    rw [List.dropWhile_cons] at h
    split at h
    · exact List.mem_cons_of_mem _ (ih h)
    · exact h

/-- Characters of a stripped string are input characters. -/
theorem mem_of_mem_pyStrip (p : Char → Bool) (c : Char) (s : List Char)
    (h : c ∈ pyStrip p s) : c ∈ s := by
  unfold pyStrip at h
  rw [List.mem_reverse] at h
  have h2 := mem_of_mem_dropWhile p c _ h
  rw [List.mem_reverse] at h2
  exact mem_of_mem_dropWhile p c s h2

/-- Characters of a joined string are separators or line characters. -/
theorem mem_joinSpace (c : Char) :
    ∀ ls : List (List Char), c ∈ joinSpace ls → c = ' ' ∨ ∃ l ∈ ls, c ∈ l := by
  intro ls
  induction ls with
  | nil => intro h; simp [joinSpace] at h
  | cons w ws ih =>
    intro h
    cases ws with
    | nil =>
      simp only [joinSpace] at h
      exact Or.inr ⟨w, by simp, h⟩
    | cons v vs =>
      simp only [joinSpace] at h
      rcases List.mem_append.mp h with h1 | h2
      · exact Or.inr ⟨w, by simp, h1⟩
      · rcases List.mem_cons.mp h2 with h3 | h4
        · exact Or.inl h3
        · rcases ih h4 with h5 | ⟨l, hl, hcl⟩
          · exact Or.inl h5
          · exact Or.inr ⟨l, List.mem_cons_of_mem _ hl, hcl⟩

/-- Characters of a newline-joined string are newlines or line characters. -/
theorem mem_joinNL (c : Char) :
    ∀ ls : List (List Char), c ∈ joinNL ls → c = '\n' ∨ ∃ l ∈ ls, c ∈ l := by
  intro ls
  induction ls with
  | nil => intro h; simp [joinNL] at h
  | cons w ws ih =>
    intro h
    cases ws with
    | nil =>
      simp only [joinNL] at h
      exact Or.inr ⟨w, by simp, h⟩
    | cons v vs =>
      simp only [joinNL] at h
      rcases List.mem_append.mp h with h1 | h2
      · exact Or.inr ⟨w, by simp, h1⟩
      · rcases List.mem_cons.mp h2 with h3 | h4
        · exact Or.inl h3
        · rcases ih h4 with h5 | ⟨l, hl, hcl⟩
          · exact Or.inl h5
          · exact Or.inr ⟨l, List.mem_cons_of_mem _ hl, hcl⟩

/-- `splitNL` never returns the empty list of pieces. -/
theorem splitNL_ne_nil (s : List Char) : splitNL s ≠ [] := by
  cases s with
  | nil => simp [splitNL]
  | cons c rest =>
    simp only [splitNL]
    split <;> simp

/-- Characters of the newline-split pieces are input characters. -/
theorem mem_splitNL (c : Char) :
    ∀ s g, g ∈ splitNL s → c ∈ g → c ∈ s := by
  intro s
  induction s with
  | nil =>
    intro g hg hc
    simp only [splitNL, List.mem_singleton] at hg
    subst hg
    simp at hc
  | cons d rest ih =>
    intro g hg hc
    simp only [splitNL] at hg
    split at hg
    · rcases List.mem_cons.mp hg with h1 | h2
      · subst h1; simp at hc
      · exact List.mem_cons_of_mem _ (ih g h2 hc)
    · rcases List.mem_cons.mp hg with h1 | h2
      · subst h1
        rcases List.mem_cons.mp hc with h3 | h4
        · exact h3 ▸ List.mem_cons_self d rest
        · cases hsp : splitNL rest with
          | nil => exact absurd hsp (splitNL_ne_nil rest)
          | cons g0 gs =>
            rw [hsp] at h4
            simp only [List.headD_cons] at h4
            exact List.mem_cons_of_mem _ (ih g0 (by rw [hsp]; exact List.mem_cons_self g0 gs) h4)
      · cases hsp : splitNL rest with
        | nil => exact absurd hsp (splitNL_ne_nil rest)
        | cons g0 gs =>
          rw [hsp] at h2
          simp only [List.tail_cons] at h2
          exact List.mem_cons_of_mem _ (ih g (by rw [hsp]; exact List.mem_cons_of_mem g0 h2) hc)

/-- The allergen-code substitution is the identity on uppercase-free text
(its match must start with an uppercase letter). -/
theorem allergGo_id_noUpper :
    ∀ (fuel : Nat) (prev : Option Char) (s : List Char), NoUpper s →
      allergGo fuel prev s = s := by
  intro fuel
  induction fuel with
  | zero => intro prev s _; rfl
  | succ fuel ih =>
    intro prev s h
    cases s with
    | nil => rfl
    | cons c rest =>
      have hc : isUpperAOU c = false := h c (List.mem_cons_self c rest)
      simp only [allergGo, hc, Bool.and_false, Bool.false_eq_true, if_false]
      exact congrArg _ (ih (some c) rest (fun d hd => h d (List.mem_cons_of_mem _ hd)))

/-- The legend substitution only ever removes characters. -/
theorem mem_legendGo (c : Char) :
    ∀ (s : List Char) (prev : Option Char), c ∈ legendGo prev s → c ∈ s := by
  intro s
  induction s with
  | nil => intro prev h; simp [legendGo] at h
  | cons d rest ih =>
    intro prev h
    simp only [legendGo] at h
    split at h
    · simp at h
    · rcases List.mem_cons.mp h with h1 | h2
      · exact h1 ▸ List.mem_cons_self d rest
      · exact List.mem_cons_of_mem _ (ih (some d) h2)

/-- The rest after a `CHF` prefix consists of input characters. -/
theorem mem_chfPrefixCI (c : Char) (s r : List Char)
    (h : chfPrefixCI s = some r) (hc : c ∈ r) : c ∈ s := by
  unfold chfPrefixCI at h
  split at h
  · split at h
    · rename_i c0 h0 f0 rest _
      cases h
      simp [List.mem_cons, hc]
    · exact absurd h (by simp)
  · exact absurd h (by simp)

/-- The rest after a price match consists of input characters. -/
theorem mem_parsePrice (c : Char) (s : List Char) (pr : List Char × List Char)
    (h : parsePrice s = some pr) (hc : c ∈ pr.2) : c ∈ s := by
  unfold parsePrice at h
  split at h
  · rename_i d1 d2 rest
    split at h
    · split at h
      · split at h
        · split at h
          · rename_i sep a b r _ _ _
            cases h
            simp only at hc
            simp [List.mem_cons, hc]
          · exact absurd h (by simp)
        · exact absurd h (by simp)
      · split at h
        · split at h
          · split at h
            · rename_i _ _ a b r _
              cases h
              simp only at hc
              simp [List.mem_cons, hc]
            · exact absurd h (by simp)
          · exact absurd h (by simp)
        · exact absurd h (by simp)
    · exact absurd h (by simp)
  · exact absurd h (by simp)

/-- The rest after a tail match consists of input characters. -/
theorem mem_tryTail (c : Char) (s : List Char) (pr : List Char × List Char)
    (h : tryTail s = some pr) (hc : c ∈ pr.2) : c ∈ s := by
  unfold tryTail at h
  split at h
  · exact absurd h (by simp)
  · rename_i s2 hch
    split at h
    · exact absurd h (by simp)
    · rename_i pr0 hpp
      split at h
      · have hinj : pr0 = pr := by injection h
        subst hinj
        have h1 : c ∈ s2.dropWhile isWS := mem_parsePrice c _ pr0 hpp hc
        have h2 : c ∈ s2 := mem_of_mem_dropWhile isWS c s2 h1
        unfold chfAfterWS at hch
        have h3 : c ∈ s.dropWhile isWS := mem_chfPrefixCI c _ s2 hch h2
        exact mem_of_mem_dropWhile isWS c s h3
      · exact absurd h (by simp)

/-- Title and rest of a successful title growth consist of accumulator
and input characters respectively. -/
theorem growTitle_chars :
    ∀ (s acc : List Char) (m : List Char × List Char × List Char),
      growTitle acc s = some m →
      (∀ c ∈ m.1, c ∈ acc ∨ c ∈ s) ∧ (∀ c ∈ m.2.2, c ∈ s) := by
  intro s
  induction s with
  | nil =>
    intro acc m h
    rw [show growTitle acc [] = (none : Option (List Char × List Char × List Char))
      from rfl] at h
    exact absurd h (by simp)
  | cons d s' ih =>
    intro acc m h
    simp only [growTitle] at h
    split at h
    · rename_i pr heq
      cases h
      refine ⟨?_, ?_⟩
      · intro c hc
        exact Or.inl (List.mem_reverse.mp hc)
      · intro c hc
        exact mem_tryTail c _ pr heq hc
    · split at h
      · exact absurd h (by simp)
      · obtain ⟨h1, h2⟩ := ih (d :: acc) m h
        constructor
        · intro c hc
          rcases h1 c hc with hA | hB
          · rcases List.mem_cons.mp hA with hA1 | hA2
            · exact Or.inr (hA1 ▸ List.mem_cons_self d s')
            · exact Or.inl hA2
          · exact Or.inr (List.mem_cons_of_mem _ hB)
        · intro c hc
          exact List.mem_cons_of_mem _ (h2 c hc)

/-- Every title of every price-pattern match consists of input characters. -/
theorem findMatchesGo_chars :
    ∀ (fuel : Nat) (s : List Char) (m : List Char × List Char),
      m ∈ findMatchesGo fuel s → ∀ c ∈ m.1, c ∈ s := by
  intro fuel
  induction fuel with
  | zero => intro s m h; simp [findMatchesGo] at h
  | succ fuel ih =>
    intro s m h
    cases s with
    | nil => simp [findMatchesGo] at h
    | cons d s' =>
      simp only [findMatchesGo] at h
      split at h
      · rename_i m0 hma
        rw [show matchAt (d :: s') = if d == '\n' then none else growTitle [d] s'
          from rfl] at hma
        split at hma
        · exact absurd hma (by simp)
        · rcases List.mem_cons.mp h with h1 | h2
          · subst h1
            intro c hc
            obtain ⟨hT, _⟩ := growTitle_chars s' [d] m0 hma
            rcases hT c hc with hA | hB
            · simp only [List.mem_singleton] at hA
              exact hA ▸ List.mem_cons_self d s'
            · exact List.mem_cons_of_mem _ hB
          · intro c hc
            obtain ⟨_, hR⟩ := growTitle_chars s' [d] m0 hma
            exact List.mem_cons_of_mem _ (hR c (ih m0.2.2 m h2 c hc))
      · intro c hc
        exact List.mem_cons_of_mem _ (ih s' m h c hc)

/-- A replacement whose needle starts with an uppercase letter is the
identity on uppercase-free text. -/
theorem replGo_id_noUpper (k : Char) (tl rep : List Char) (hk : isUpperAOU k = true) :
    ∀ (fuel : Nat) (s : List Char), NoUpper s → replGo (k :: tl) rep fuel s = s := by
  intro fuel
  induction fuel with
  | zero => intro s _; rfl
  | succ fuel ih =>
    intro s h
    cases s with
    | nil => rfl
    | cons c rest =>
      have hc : isUpperAOU c = false := h c (List.mem_cons_self c rest)
      have hkc : (k == c) = false := by
        rcases Bool.eq_false_or_eq_true (k == c) with hb | hb
        · rw [eq_of_beq hb] at hk
          exact absurd hk (by simp [hc])
        · exact hb
      have hsw : startsWithL (k :: tl) (c :: rest) = false := by
        simp [startsWithL, hkc]
      simp only [replGo, hsw, Bool.false_eq_true, if_false]
      exact congrArg _ (ih rest (fun d hd => h d (List.mem_cons_of_mem _ hd)))

/-- The camel-case split is the identity on uppercase-free text. -/
theorem camelSplit_id_noUpper : ∀ s : List Char, NoUpper s → camelSplit s = s := by
  intro s
  induction s with
  | nil => intro _; rfl
  | cons a s' ih =>
    intro h
    cases s' with
    | nil => rfl
    | cons b rest =>
      have hb : isUpperAOU b = false := h b (List.mem_cons_of_mem _ (List.mem_cons_self b rest))
      simp only [camelSplit, hb, Bool.and_false, Bool.false_eq_true, if_false]
      exact congrArg _ (ih (fun d hd => h d (List.mem_cons_of_mem _ hd)))

/-- Characters of the double-space collapse are spaces, buffered
characters or input characters. -/
theorem mem_collapseMultiGo (c : Char) :
    ∀ (s pend : List Char), c ∈ collapseMultiGo pend s → c = ' ' ∨ c ∈ pend ∨ c ∈ s := by
  intro s
  induction s with
  | nil =>
    intro pend h
    simp only [collapseMultiGo] at h
    split at h
    · simp only [List.mem_singleton] at h
      exact Or.inl h
    · exact Or.inr (Or.inl (List.mem_reverse.mp h))
  | cons d rest ih =>
    intro pend h
    simp only [collapseMultiGo] at h
    split at h
    · rcases ih (d :: pend) h with h1 | h2 | h3
      · exact Or.inl h1
      · rcases List.mem_cons.mp h2 with h4 | h5
        · exact Or.inr (Or.inr (h4 ▸ List.mem_cons_self d rest))
        · exact Or.inr (Or.inl h5)
      · exact Or.inr (Or.inr (List.mem_cons_of_mem _ h3))
    · rcases List.mem_append.mp h with h1 | h2
      · split at h1
        · simp only [List.mem_singleton] at h1
          exact Or.inl h1
        · exact Or.inr (Or.inl (List.mem_reverse.mp h1))
      · rcases List.mem_cons.mp h2 with h3 | h4
        · exact Or.inr (Or.inr (h3 ▸ List.mem_cons_self d rest))
        · rcases ih [] h4 with h5 | h6 | h7
          · exact Or.inl h5
          · simp at h6
          · exact Or.inr (Or.inr (List.mem_cons_of_mem _ h7))

/-- The full title cleanup keeps uppercase-free titles uppercase-free. -/
theorem cleanTitle_noUpper (t : List Char) (h : NoUpper t) : NoUpper (cleanTitle t) := by
  unfold cleanTitle
  have h0 : NoUpper (pyStrip stripSet1 t) :=
    fun d hd => h d (mem_of_mem_pyStrip stripSet1 d t hd)
  have e1 : replaceAll (sToL "Tagessuppeklein") (sToL "Tagessuppe klein")
      (pyStrip stripSet1 t) = pyStrip stripSet1 t :=
    replGo_id_noUpper 'T' _ _ (by decide) _ _ h0
  rw [show sToL "Tagessuppeklein" = 'T' :: sToL "agessuppeklein" from rfl] at e1 ⊢
  rw [e1]
  have e2 : replaceAll (sToL "Tagessuppegross") (sToL "Tagessuppe gross")
      (pyStrip stripSet1 t) = pyStrip stripSet1 t :=
    replGo_id_noUpper 'T' _ _ (by decide) _ _ h0
  rw [show sToL "Tagessuppegross" = 'T' :: sToL "agessuppegross" from rfl] at e2 ⊢
  rw [e2]
  rw [camelSplit_id_noUpper _ h0]
  intro d hd
  rcases mem_collapseMultiGo d _ [] hd with h1 | h2 | h3
  · subst h1; decide
  · simp at h2
  · exact h0 d h3

/-- The cleaned extraction text of uppercase-free lines is uppercase-free. -/
theorem cleanedText_noUpper (lines : List (List Char))
    (h : ∀ ln ∈ lines, NoUpper ln) : NoUpper (cleanedText lines) := by
  unfold cleanedText
  have h1 : NoUpper (joinSpace lines) := by
    intro d hd
    rcases mem_joinSpace d lines hd with hA | ⟨l, hl, hdl⟩
    · subst hA; decide
    · exact h l hl d hdl
  have h2 : NoUpper (collapseAllWS (joinSpace lines)) := by
    intro d hd
    rcases mem_collapseGo d false _ hd with hA | hB
    · subst hA; decide
    · exact h1 d hB
  have h3 : NoUpper (pyStrip isWS (collapseAllWS (joinSpace lines))) :=
    fun d hd => h2 d (mem_of_mem_pyStrip isWS d _ hd)
  rw [show stripAllergens (pyStrip isWS (collapseAllWS (joinSpace lines))) =
      pyStrip isWS (collapseAllWS (joinSpace lines)) from
    allergGo_id_noUpper _ none _ h3]
  intro d hd
  exact h3 d (mem_legendGo d _ none hd)

/-- On uppercase-free input lines every extracted item title is
uppercase-free. -/
theorem extract_items_noUpper (lines : List (List Char))
    (h : ∀ ln ∈ lines, NoUpper ln) :
    ∀ it ∈ extract_items_from_lines lines, NoUpper it.title := by
  intro it hit
  unfold extract_items_from_lines at hit
  split at hit
  · obtain ⟨ln, hln, hsome⟩ := List.mem_filterMap.mp hit
    unfold lineFallbackItem at hsome
    split at hsome
    · exact absurd hsome (by simp)
    · have hti : it.title = pyStrip stripSet2 (collapseAllWS ln) := by
        cases hsome
        rfl
      rw [hti]
      intro d hd
      have hd2 := mem_of_mem_pyStrip stripSet2 d _ hd
      rcases mem_collapseGo d false _ hd2 with hA | hB
      · subst hA; decide
      · exact h ln hln d hB
  · obtain ⟨m, hm, hsome⟩ := List.mem_filterMap.mp hit
    unfold mkItem at hsome
    split at hsome
    · exact absurd hsome (by simp)
    · have hti : it.title = cleanTitle m.1 := by
        cases hsome
        rfl
      rw [hti]
      refine cleanTitle_noUpper m.1 ?_
      intro d hd
      have hmem := findMatchesGo_chars (cleanedText lines).length (cleanedText lines) m hm d hd
      exact cleanedText_noUpper lines h d hmem

/-- Segment characters are blob characters. -/
theorem mem_mkSegments (blob : List Char) :
    ∀ (hl : List (Weekday × Nat)) (x : Weekday × List Char),
      x ∈ mkSegments blob hl → ∀ c ∈ x.2, c ∈ blob := by
  intro hl
  induction hl with
  | nil => intro x hx; simp [mkSegments] at hx
  | cons y rest ih =>
    intro x hx c hc
    obtain ⟨wd, p⟩ := y
    simp only [mkSegments] at hx
    rcases List.mem_cons.mp hx with h1 | h2
    · subst h1
      simp only [pySlice] at hc
      exact (List.drop_sublist p blob).subset ((List.take_sublist _ _).subset hc)
    · exact ih x h2 c hc

/-- Lines cut out of an uppercase-free segment are uppercase-free. -/
theorem segLines_noUpper (seg : List Char) (h : NoUpper seg) :
    ∀ ln ∈ segLines seg, NoUpper ln := by
  intro ln hln
  unfold segLines at hln
  obtain ⟨piece, hpiece, hsome⟩ := List.mem_filterMap.mp hln
  split at hsome
  · exact absurd hsome (by simp)
  · have hln2 : ln = pyStrip isWS (collapseAllWS piece) := by
      cases hsome
      rfl
    rw [hln2]
    intro d hd
    have hd2 := mem_of_mem_pyStrip isWS d _ hd
    rcases mem_collapseGo d false _ hd2 with hA | hB
    · subst hA; decide
    · exact h d (mem_splitNL d seg piece hpiece hB)

/-- C10: every item produced by the primary segmentation strategy has an
uppercase-free title (the blob is lowercased before segmentation), and
consequently the camel-case fix and the soup word-merge fix are the
identity on such titles. -/
theorem primary_titles_no_uppercase :
    (∀ (rawLines : List (List Char)) (p : Weekday × List MenuItem) (it : MenuItem),
       p ∈ primaryStage rawLines → it ∈ p.2 → NoUpper it.title) ∧
    (∀ t : List Char, NoUpper t →
       camelSplit t = t ∧
       replaceAll (sToL "Tagessuppeklein") (sToL "Tagessuppe klein") t = t) := by
  constructor
  · intro rawLines p it hp hit
    unfold primaryStage at hp
    split at hp
    · obtain ⟨wd, _, hpw⟩ := List.mem_map.mp hp
      have hblob : NoUpper (blobOf rawLines) := noUpper_pyLowerStr _
      rw [← hpw] at hit
      simp only at hit
      rcases hsf : segFind wd (mkSegments (blobOf rawLines)
          (sortHits (computeHits (blobOf rawLines)))) with _ | seg
      · rw [hsf] at hit
        simp at hit
      · rw [hsf] at hit
        simp only at hit
        unfold segFind at hsf
        rw [Option.map_eq_some'] at hsf
        obtain ⟨x, hfind, hxseg⟩ := hsf
        have hxmem := List.mem_of_find?_eq_some hfind
        have hsegNU : NoUpper seg := by
          rw [← hxseg]
          exact fun d hd => hblob d (mem_mkSegments _ _ x hxmem d hd)
        exact extract_items_noUpper _ (segLines_noUpper seg hsegNU) it hit
    · obtain ⟨wd, _, hpw⟩ := List.mem_map.mp hp
      rw [← hpw] at hit
      simp at hit
  · intro t ht
    refine ⟨camelSplit_id_noUpper t ht, ?_⟩
    rw [show sToL "Tagessuppeklein" = 'T' :: sToL "agessuppeklein" from rfl]
    exact replGo_id_noUpper 'T' _ _ (by decide) _ _ ht

/-- Witness for C10 at a concrete two-line input whose primary
segmentation produces an item for Monday. -/
theorem primary_titles_no_uppercase_witness :
    (Weekday.montag, [wItemMon]) ∈ primaryStage wLines2 ∧ NoUpper wItemMon.title :=
  ⟨by decide,
   primary_titles_no_uppercase.1 wLines2 (Weekday.montag, [wItemMon]) wItemMon
     (by decide) (by decide)⟩
